import Mathlib

/-!
Verification of the dune-stuff linear-algebra container layer and its helpers.

Shallow embedding of:
* `EigenDenseMatrix` (dune/stuff/la/container/eigen/dense.hh): the copy-on-write
  dense matrix container with `set_entry`, `add_to_entry`, `scal`, `axpy`,
  `clear_row`/`clear_col`/`unit_row`/`unit_col` and `has_equal_shape`;
* `SparsityPatternDefault` and `createCompressedSparsityPattern`
  (dune/stuff/la/container/pattern.hh);
* `Stuff::writeSparseMatrix` / `Stuff::readSparseMatrix` (stuff/matrix.hh);
* `ExtendedParameterTree` (dune/stuff/common/parameter/tree.hh);
* `Common::wraparound_array` (dune/stuff/common/misc header, stuff.hh).

Scalars (C++ `double`) are embedded as `ℚ`; machine sizes (`size_t`, `int`)
as `Nat` / `Int`.
-/

namespace DuneStuff

/-- The Eigen dense-matrix backend (`Eigen::Matrix<double, Dynamic, Dynamic>`):
a shape together with an entry function. -/
structure Backend where
  rows : Nat
  cols : Nat
  entry : Nat → Nat → ℚ

/-- Effect of `backend()(ii, jj) = value` (the write in `set_entry`). -/
def Backend.setE (m : Backend) (i j : Nat) (v : ℚ) : Backend :=
  { m with entry := fun i' j' => if i' = i ∧ j' = j then v else m.entry i' j' }

/-- Effect of `backend()(ii, jj) += value` (the write in `add_to_entry`). -/
def Backend.addE (m : Backend) (i j : Nat) (v : ℚ) : Backend :=
  { m with entry := fun i' j' => if i' = i ∧ j' = j then m.entry i' j' + v else m.entry i' j' }

/-- Effect of `backend() *= alpha` (the write in `scal`). -/
def Backend.scalE (m : Backend) (a : ℚ) : Backend :=
  { m with entry := fun i' j' => a * m.entry i' j' }

/-- Source `get_entry(ii, jj)`: reads the backend. -/
def Backend.get_entry (m : Backend) (i j : Nat) : ℚ :=
  m.entry i j

/-- Source `has_equal_shape(other)`: `rows() == other.rows() && cols() == other.cols()`. -/
def Backend.has_equal_shape (m other : Backend) : Bool :=
  m.rows == other.rows && m.cols == other.cols

/-- The shape text `rows() << "x" << cols()` as streamed into error messages. -/
def shapeStr (r c : Nat) : String :=
  toString r ++ "x" ++ toString c

/-- The message streamed by `DUNE_THROW(Exceptions::shapes_do_not_match, ...)` in `axpy`. -/
def axpyErrMsg (m xx : Backend) : String :=
  "The shape of xx (" ++ shapeStr xx.rows xx.cols ++
    ") does not match the shape of this (" ++ shapeStr m.rows m.cols ++ ")!"

/-- Source `axpy(alpha, xx)`: throws a shape mismatch unless `has_equal_shape(xx)`,
otherwise `backend() += alpha * xx`. -/
def Backend.axpy (m : Backend) (alpha : ℚ) (xx : Backend) : Except String Backend :=
  if m.has_equal_shape xx = false then
    Except.error (axpyErrMsg m xx)
  else
    Except.ok { m with entry := fun i j => m.entry i j + alpha * xx.entry i j }

/-- The message streamed by `DUNE_THROW(Exceptions::index_out_of_range, ...)` in
`clear_row` / `unit_row`. -/
def rowErrMsg (i r : Nat) : String :=
  "Given ii (" ++ toString i ++ ") is larger than the rows of this (" ++ toString r ++ ")!"

/-- The message streamed by `DUNE_THROW(Exceptions::index_out_of_range, ...)` in
`clear_col` / `unit_col`. -/
def colErrMsg (j c : Nat) : String :=
  "Given jj (" ++ toString j ++ ") is larger than the cols of this (" ++ toString c ++ ")!"

/-- The loop `for jj < cols: backend(ii, jj) = 0` shared by `clear_row` and `unit_row`. -/
def Backend.rowZeroed (m : Backend) (i : Nat) : Backend :=
  { m with entry := fun i' j' => if i' = i ∧ j' < m.cols then 0 else m.entry i' j' }

/-- The loop `for ii < rows: backend(ii, jj) = 0` shared by `clear_col` and `unit_col`. -/
def Backend.colZeroed (m : Backend) (j : Nat) : Backend :=
  { m with entry := fun i' j' => if i' < m.rows ∧ j' = j then 0 else m.entry i' j' }

/-- Source `clear_row(ii)`: throws `index_out_of_range` if `ii >= rows()`, else zeroes row `ii`. -/
def Backend.clear_row (m : Backend) (i : Nat) : Except String Backend :=
  if m.rows ≤ i then Except.error (rowErrMsg i m.rows)
  else Except.ok (m.rowZeroed i)

/-- Source `clear_col(jj)`: throws `index_out_of_range` if `jj >= cols()`, else zeroes column `jj`. -/
def Backend.clear_col (m : Backend) (j : Nat) : Except String Backend :=
  if m.cols ≤ j then Except.error (colErrMsg j m.cols)
  else Except.ok (m.colZeroed j)

/-- Source `unit_row(ii)`: throws `index_out_of_range` if `ii >= rows()`, else zeroes row `ii`
and then writes `backend(ii, ii) = 1`. -/
def Backend.unit_row (m : Backend) (i : Nat) : Except String Backend :=
  if m.rows ≤ i then Except.error (rowErrMsg i m.rows)
  else Except.ok ((m.rowZeroed i).setE i i 1)

/-- Source `unit_col(jj)`: throws `index_out_of_range` if `jj >= cols()`, else zeroes column `jj`
and then writes `backend(jj, jj) = 1`. -/
def Backend.unit_col (m : Backend) (j : Nat) : Except String Backend :=
  if m.cols ≤ j then Except.error (colErrMsg j m.cols)
  else Except.ok ((m.colZeroed j).setE j j 1)

/-- Substring test on character lists (used to state that an error message
reports both shapes). -/
def containsSub (needle : List Char) : List Char → Bool
  | [] => needle.isEmpty
  | c :: rest => needle.isPrefixOf (c :: rest) || containsSub needle rest

/-- Substring test on strings. -/
def containsStr (needle hay : String) : Bool :=
  containsSub needle.data hay.data

theorem isPrefixOf_append_self (l t : List Char) : l.isPrefixOf (l ++ t) = true := by
  induction l with
  | nil => simp [List.isPrefixOf]
  | cons a as ih => simp [List.isPrefixOf, ih]

theorem containsSub_of_isPrefixOf {n l : List Char} (h : n.isPrefixOf l = true) :
    containsSub n l = true := by
  cases l with
  | nil =>
    cases n with
    | nil => rfl
    | cons a as => simp [List.isPrefixOf] at h
  | cons c rest => simp [containsSub, h]

theorem containsSub_append (n l1 l2 : List Char) :
    containsSub n (l1 ++ (n ++ l2)) = true := by
  induction l1 with
  | nil => exact containsSub_of_isPrefixOf (isPrefixOf_append_self n l2)
  | cons c cs ih => simp [containsSub, ih]

theorem string_data_append (s t : String) : (s ++ t).data = s.data ++ t.data :=
  rfl

theorem containsStr_middle (s1 n s2 : String) :
    containsStr n (s1 ++ n ++ s2) = true := by
  have h : (s1 ++ n ++ s2).data = s1.data ++ (n.data ++ s2.data) := by
    rw [string_data_append, string_data_append, List.append_assoc]
  unfold containsStr
  rw [h]
  exact containsSub_append n.data s1.data s2.data

theorem containsStr_of_data (n hay : String) (l1 l2 : List Char)
    (h : hay.data = l1 ++ (n.data ++ l2)) : containsStr n hay = true := by
  unfold containsStr
  rw [h]
  exact containsSub_append n.data l1 l2

/-- Concrete 2x2 matrix used by witnesses. -/
def mat22 : Backend :=
  ⟨2, 2, fun i j => (i : ℚ) + 2 * (j : ℚ)⟩

/-- Concrete second 2x2 matrix used by witnesses. -/
def mat22b : Backend :=
  ⟨2, 2, fun _ _ => (5 : ℚ)⟩

/-- Concrete 3x2 matrix used by witnesses (shape mismatch against `mat22`). -/
def mat32 : Backend :=
  ⟨3, 2, fun _ _ => (1 : ℚ)⟩

/-- C2: for any index at or beyond the matrix dimensions (in particular the
one-past-last index), `clear_row`, `unit_row`, `clear_col` and `unit_col` all
return the `index_out_of_range` error and no modified matrix. -/
theorem clear_unit_out_of_range (m : Backend) (i j : Nat)
    (hi : m.rows ≤ i) (hj : m.cols ≤ j) :
    m.clear_row i = Except.error (rowErrMsg i m.rows) ∧
    m.unit_row i = Except.error (rowErrMsg i m.rows) ∧
    m.clear_col j = Except.error (colErrMsg j m.cols) ∧
    m.unit_col j = Except.error (colErrMsg j m.cols) := by
  unfold Backend.clear_row Backend.unit_row Backend.clear_col Backend.unit_col
  simp [hi, hj]

theorem clear_unit_out_of_range_witness :
    (mat22.rows ≤ 2 ∧ mat22.cols ≤ 2) ∧
    (mat22.clear_row 2 = Except.error (rowErrMsg 2 mat22.rows) ∧
     mat22.unit_row 2 = Except.error (rowErrMsg 2 mat22.rows) ∧
     mat22.clear_col 2 = Except.error (colErrMsg 2 mat22.cols) ∧
     mat22.unit_col 2 = Except.error (colErrMsg 2 mat22.cols)) :=
  ⟨⟨by decide, by decide⟩, clear_unit_out_of_range mat22 2 2 (by decide) (by decide)⟩

/-- C3: `axpy(alpha, xx)` errors exactly when the shape of `xx` differs from the
shape of `this`; the error message contains both shapes (`RxC` of `xx` and of
`this`); on matching shapes the result is `this + alpha * xx` entrywise. -/
theorem axpy_shape_spec (m xx : Backend) (alpha : ℚ) :
    ((∃ e, m.axpy alpha xx = Except.error e) ↔ ¬(xx.rows = m.rows ∧ xx.cols = m.cols)) ∧
    (¬(xx.rows = m.rows ∧ xx.cols = m.cols) →
      m.axpy alpha xx = Except.error (axpyErrMsg m xx) ∧
      containsStr (shapeStr xx.rows xx.cols) (axpyErrMsg m xx) = true ∧
      containsStr (shapeStr m.rows m.cols) (axpyErrMsg m xx) = true) ∧
    ((xx.rows = m.rows ∧ xx.cols = m.cols) →
      ∃ mr, m.axpy alpha xx = Except.ok mr ∧
        ∀ i j, mr.entry i j = m.entry i j + alpha * xx.entry i j) := by
  have hshape : m.has_equal_shape xx = true ↔ (xx.rows = m.rows ∧ xx.cols = m.cols) := by
    unfold Backend.has_equal_shape
    rw [Bool.and_eq_true, beq_iff_eq, beq_iff_eq]
    exact ⟨fun ⟨h1, h2⟩ => ⟨h1.symm, h2.symm⟩, fun ⟨h1, h2⟩ => ⟨h1.symm, h2.symm⟩⟩
  have hxx : containsStr (shapeStr xx.rows xx.cols) (axpyErrMsg m xx) = true := by
    apply containsStr_of_data _ _ ("The shape of xx (").data
      ((") does not match the shape of this (").data ++
        ((shapeStr m.rows m.cols).data ++ (")!").data))
    simp only [axpyErrMsg, string_data_append, List.append_assoc]
  have hm : containsStr (shapeStr m.rows m.cols) (axpyErrMsg m xx) = true := by
    apply containsStr_of_data _ _
      (("The shape of xx (").data ++ ((shapeStr xx.rows xx.cols).data ++
        (") does not match the shape of this (").data)) ((")!").data)
    simp only [axpyErrMsg, string_data_append, List.append_assoc]
  by_cases h : m.has_equal_shape xx = true
  · have hs := hshape.mp h
    refine ⟨?_, ?_, ?_⟩
    · constructor
      · rintro ⟨e, he⟩
        unfold Backend.axpy at he
        rw [h] at he
        simp at he
      · intro hn; exact absurd hs hn
    · intro hn; exact absurd hs hn
    · intro _
      refine ⟨{ m with entry := fun i j => m.entry i j + alpha * xx.entry i j }, ?_, fun i j => rfl⟩
      unfold Backend.axpy
      rw [h]
      simp
  · have hfalse : m.has_equal_shape xx = false := by
      cases hb : m.has_equal_shape xx
      · rfl
      · exact absurd hb h
    have hns : ¬(xx.rows = m.rows ∧ xx.cols = m.cols) := fun hc => h (hshape.mpr hc)
    refine ⟨?_, ?_, ?_⟩
    · constructor
      · intro _; exact hns
      · intro _
        refine ⟨axpyErrMsg m xx, ?_⟩
        unfold Backend.axpy
        rw [hfalse]
        simp
    · intro _
      refine ⟨?_, hxx, hm⟩
      unfold Backend.axpy
      rw [hfalse]
      simp
    · intro hc; exact absurd hc hns

theorem axpy_shape_spec_witness :
    ¬(mat32.rows = mat22.rows ∧ mat32.cols = mat22.cols) ∧
    (mat22.axpy 1 mat32 = Except.error (axpyErrMsg mat22 mat32) ∧
     containsStr (shapeStr mat32.rows mat32.cols) (axpyErrMsg mat22 mat32) = true ∧
     containsStr (shapeStr mat22.rows mat22.cols) (axpyErrMsg mat22 mat32) = true) :=
  ⟨by decide, (axpy_shape_spec mat22 mat32 1).2.1 (by decide)⟩

/-- C5: for a square matrix and a valid row index `i`, `unit_row(i)` succeeds,
row `i` becomes the `i`-th unit row (`1` on the diagonal, `0` elsewhere), and
all other rows are untouched. -/
theorem unit_row_spec (m : Backend) (i : Nat) (_hsq : m.rows = m.cols) (hi : i < m.rows) :
    ∃ mr, m.unit_row i = Except.ok mr ∧
      (∀ j, j < m.cols → mr.entry i j = if j = i then 1 else 0) ∧
      (∀ i' j, i' ≠ i → mr.entry i' j = m.entry i' j) := by
  refine ⟨(m.rowZeroed i).setE i i 1, ?_, ?_, ?_⟩
  · unfold Backend.unit_row
    simp [Nat.not_le.mpr hi]
  · intro j hj
    by_cases hji : j = i
    · subst hji
      simp [Backend.setE, Backend.rowZeroed]
    · simp [Backend.setE, Backend.rowZeroed, hji, hj]
  · intro i' j hne
    simp [Backend.setE, Backend.rowZeroed, hne]

theorem unit_row_spec_witness :
    (mat22.rows = mat22.cols ∧ 1 < mat22.rows) ∧
    (∃ mr, mat22.unit_row 1 = Except.ok mr ∧
      (∀ j, j < mat22.cols → mr.entry 1 j = if j = 1 then 1 else 0) ∧
      (∀ i' j, i' ≠ 1 → mr.entry i' j = mat22.entry i' j)) :=
  ⟨⟨rfl, by decide⟩, unit_row_spec mat22 1 rfl (by decide)⟩

/-- C6: `axpy(0, other)` on a shape-compatible `other` succeeds and leaves every
entry (and the shape) unchanged. -/
theorem axpy_zero_noop (m other : Backend) (h : m.has_equal_shape other = true) :
    ∃ mr, m.axpy 0 other = Except.ok mr ∧ mr.rows = m.rows ∧ mr.cols = m.cols ∧
      ∀ i j, mr.entry i j = m.entry i j := by
  refine ⟨_, ?_, rfl, rfl, ?_⟩
  · unfold Backend.axpy
    rw [h]
    simp
  · intro i j
    simp

theorem axpy_zero_noop_witness :
    mat22.has_equal_shape mat22b = true ∧
    (∃ mr, mat22.axpy 0 mat22b = Except.ok mr ∧ mr.rows = mat22.rows ∧ mr.cols = mat22.cols ∧
      ∀ i j, mr.entry i j = mat22.entry i j) :=
  ⟨by decide, axpy_zero_noop mat22 mat22b (by decide)⟩

/-! ### Copy-on-write semantics of `EigenDenseMatrix` (C1)

`EigenDenseMatrix` stores `mutable std::shared_ptr<BackendType> backend_`;
`operator=(const ThisType&)` copies the pointer (`backend_ = other.backend_`),
and every mutating operation goes through `ensure_uniqueness()`, which clones
the backend when `!backend_.unique()`.

We embed a world holding exactly the two containers `a` and `b` of the claim:
a heap of backends addressed by `Nat` (with an allocation counter `next`), and
the two containers as pointers `pa`, `pb` into the heap.  In this world
`backend_.unique()` for `b` is exactly `pa ≠ pb` (the only other owner is `a`),
and symmetrically for `a`. -/

/-- Heap write: `writeMem mem p B` is `mem` with address `p` set to `B`. -/
def writeMem (mem : Nat → Backend) (p : Nat) (B : Backend) : Nat → Backend :=
  fun q => if q = p then B else mem q

/-- A world with exactly the two dense-matrix containers `a` (pointer `pa`) and
`b` (pointer `pb`) sharing one heap of backends. -/
structure World where
  mem : Nat → Backend
  next : Nat
  pa : Nat
  pb : Nat

/-- Source `b = a` (`operator=(const ThisType& other)`, which does `backend_ = other.backend_`):
`b`'s pointer is replaced by `a`'s. -/
def World.assignBA (w : World) : World :=
  { w with pb := w.pa }

/-- Source `ensure_uniqueness()` on container `b`: with only `a` and `b` alive,
`backend_.unique()` fails exactly when `a` holds the same pointer; then a fresh
copy of the backend is allocated and `b` repointed to it. -/
def World.ensureUniqueB (w : World) : World :=
  if w.pb = w.pa then
    { w with mem := writeMem w.mem w.next (w.mem w.pb), pb := w.next, next := w.next + 1 }
  else w

/-- Source `ensure_uniqueness()` on container `a`. -/
def World.ensureUniqueA (w : World) : World :=
  if w.pa = w.pb then
    { w with mem := writeMem w.mem w.next (w.mem w.pa), pa := w.next, next := w.next + 1 }
  else w

/-- The mutating container operations of the claim: `set_entry`, `add_to_entry`
and `scal`. -/
inductive Mut where
  | set_entry (i j : Nat) (v : ℚ)
  | add_to_entry (i j : Nat) (v : ℚ)
  | scal (alpha : ℚ)

/-- The backend effect of each mutating operation (the write performed after
`backend()` has ensured uniqueness). -/
def Mut.applyBackend : Mut → Backend → Backend
  | .set_entry i j v, B => B.setE i j v
  | .add_to_entry i j v, B => B.addE i j v
  | .scal alpha, B => B.scalE alpha

/-- A mutation of container `b`: `backend()` first calls `ensure_uniqueness()`,
then the write hits the (now private) backend of `b`. -/
def World.mutateB (w : World) (m : Mut) : World :=
  let w' := w.ensureUniqueB
  { w' with mem := writeMem w'.mem w'.pb (m.applyBackend (w'.mem w'.pb)) }

/-- A mutation of container `a`. -/
def World.mutateA (w : World) (m : Mut) : World :=
  let w' := w.ensureUniqueA
  { w' with mem := writeMem w'.mem w'.pa (m.applyBackend (w'.mem w'.pa)) }

/-- Source `a.get_entry(i, j)`. -/
def World.getA (w : World) (i j : Nat) : ℚ :=
  (w.mem w.pa).entry i j

/-- Source `b.get_entry(i, j)`. -/
def World.getB (w : World) (i j : Nat) : ℚ :=
  (w.mem w.pb).entry i j

/-- Run a sequence of mutations, each tagged with its target container
(`true` = mutate `a`, `false` = mutate `b`). -/
def World.runMuts (w : World) (ms : List (Bool × Mut)) : World :=
  ms.foldl (fun w' tm => if tm.1 then w'.mutateA tm.2 else w'.mutateB tm.2) w

theorem writeMem_ne (mem : Nat → Backend) (p q : Nat) (B : Backend) (h : q ≠ p) :
    writeMem mem p B q = mem q := by
  unfold writeMem
  simp [h]

theorem writeMem_eq (mem : Nat → Backend) (p : Nat) (B : Backend) :
    writeMem mem p B p = B := by
  unfold writeMem
  simp

/-- Mutating `b` while the pointers differ: pointers and `a`'s backend stay. -/
theorem mutateB_of_ne (w : World) (m : Mut) (h : w.pa ≠ w.pb) :
    (w.mutateB m).pa = w.pa ∧ (w.mutateB m).pb = w.pb ∧ (w.mutateB m).next = w.next ∧
      (w.mutateB m).mem w.pa = w.mem w.pa := by
  unfold World.mutateB World.ensureUniqueB
  rw [if_neg (fun he => h he.symm)]
  exact ⟨rfl, rfl, rfl, writeMem_ne _ _ _ _ h⟩

/-- Mutating `a` while the pointers differ: pointers and `b`'s backend stay. -/
theorem mutateA_of_ne (w : World) (m : Mut) (h : w.pa ≠ w.pb) :
    (w.mutateA m).pa = w.pa ∧ (w.mutateA m).pb = w.pb ∧ (w.mutateA m).next = w.next ∧
      (w.mutateA m).mem w.pb = w.mem w.pb := by
  unfold World.mutateA World.ensureUniqueA
  rw [if_neg h]
  exact ⟨rfl, rfl, rfl, writeMem_ne _ _ _ _ (fun he => h he.symm)⟩

/-- Mutating `b` while the backend is shared (`pa = pb`) and the heap invariant
`pa < next` holds: `b` gets a fresh private pointer, `a` and its backend stay. -/
theorem mutateB_of_shared (w : World) (m : Mut) (h : w.pb = w.pa) (ha : w.pa < w.next) :
    (w.mutateB m).pa = w.pa ∧ (w.mutateB m).pb = w.next ∧ (w.mutateB m).next = w.next + 1 ∧
      (w.mutateB m).mem w.pa = w.mem w.pa ∧
      (w.mutateB m).mem w.next = m.applyBackend (w.mem w.pb) := by
  unfold World.mutateB World.ensureUniqueB
  rw [if_pos h]
  refine ⟨rfl, rfl, rfl, ?_, ?_⟩
  · show writeMem (writeMem w.mem w.next (w.mem w.pb)) w.next _ w.pa = w.mem w.pa
    rw [writeMem_ne _ _ _ _ (Nat.ne_of_lt ha), writeMem_ne _ _ _ _ (Nat.ne_of_lt ha)]
  · show writeMem (writeMem w.mem w.next (w.mem w.pb)) w.next
      (m.applyBackend (writeMem w.mem w.next (w.mem w.pb) w.next)) w.next = _
    rw [writeMem_eq, writeMem_eq]

/-- Mutating `a` while the backend is shared (`pa = pb`) and `pb < next`:
`a` gets a fresh private pointer, `b` and its backend stay. -/
theorem mutateA_of_shared (w : World) (m : Mut) (h : w.pa = w.pb) (hb : w.pb < w.next) :
    (w.mutateA m).pa = w.next ∧ (w.mutateA m).pb = w.pb ∧ (w.mutateA m).next = w.next + 1 ∧
      (w.mutateA m).mem w.pb = w.mem w.pb ∧
      (w.mutateA m).mem w.next = m.applyBackend (w.mem w.pa) := by
  unfold World.mutateA World.ensureUniqueA
  rw [if_pos h]
  refine ⟨rfl, rfl, rfl, ?_, ?_⟩
  · show writeMem (writeMem w.mem w.next (w.mem w.pa)) w.next _ w.pb = w.mem w.pb
    rw [writeMem_ne _ _ _ _ (Nat.ne_of_lt hb), writeMem_ne _ _ _ _ (Nat.ne_of_lt hb)]
  · show writeMem (writeMem w.mem w.next (w.mem w.pa)) w.next
      (m.applyBackend (writeMem w.mem w.next (w.mem w.pa) w.next)) w.next = _
    rw [writeMem_eq, writeMem_eq]

/-- Once the pointers differ, any sequence of mutations of `b` leaves `a`'s
entries (and the pointer separation) intact. -/
theorem runMuts_onlyB (ms : List (Bool × Mut)) :
    ∀ w : World, w.pa ≠ w.pb → (∀ x ∈ ms, x.1 = false) →
      (w.runMuts ms).pa ≠ (w.runMuts ms).pb ∧
      ∀ i j, (w.runMuts ms).getA i j = w.getA i j := by
  induction ms with
  | nil => exact fun w h _ => ⟨h, fun i j => rfl⟩
  | cons x xs ih =>
    intro w h hall
    have hx : x.1 = false := hall x (List.mem_cons_self x xs)
    have hstep : World.runMuts w (x :: xs) = World.runMuts (w.mutateB x.2) xs := by
      unfold World.runMuts
      rw [List.foldl_cons, hx]
      simp
    obtain ⟨h1, h2, h3, h4⟩ := mutateB_of_ne w x.2 h
    have hne : (w.mutateB x.2).pa ≠ (w.mutateB x.2).pb := by
      rw [h1, h2]; exact h
    obtain ⟨hres1, hres2⟩ := ih (w.mutateB x.2) hne (fun y hy => hall y (List.mem_cons_of_mem x hy))
    rw [hstep]
    refine ⟨hres1, fun i j => ?_⟩
    rw [hres2 i j]
    unfold World.getA
    rw [h1, h4]

/-- Once the pointers differ, any sequence of mutations of `a` leaves `b`'s
entries (and the pointer separation) intact. -/
theorem runMuts_onlyA (ms : List (Bool × Mut)) :
    ∀ w : World, w.pa ≠ w.pb → (∀ x ∈ ms, x.1 = true) →
      (w.runMuts ms).pa ≠ (w.runMuts ms).pb ∧
      ∀ i j, (w.runMuts ms).getB i j = w.getB i j := by
  induction ms with
  | nil => exact fun w h _ => ⟨h, fun i j => rfl⟩
  | cons x xs ih =>
    intro w h hall
    have hx : x.1 = true := hall x (List.mem_cons_self x xs)
    have hstep : World.runMuts w (x :: xs) = World.runMuts (w.mutateA x.2) xs := by
      unfold World.runMuts
      rw [List.foldl_cons, hx]
      simp
    obtain ⟨h1, h2, h3, h4⟩ := mutateA_of_ne w x.2 h
    have hne : (w.mutateA x.2).pa ≠ (w.mutateA x.2).pb := by
      rw [h1, h2]; exact h
    obtain ⟨hres1, hres2⟩ := ih (w.mutateA x.2) hne (fun y hy => hall y (List.mem_cons_of_mem x hy))
    rw [hstep]
    refine ⟨hres1, fun i j => ?_⟩
    rw [hres2 i j]
    unfold World.getB
    rw [h2, h4]

/-- C1: after `b = a` (shared backend), the first mutation of `b` through
`set_entry`/`add_to_entry`/`scal` leaves all of `a`'s entries unchanged while
taking effect on `b` (which acquires a private backend); symmetrically a
mutation of `a` leaves `b` unchanged; and once `b` has diverged, no later
sequence of mutations of one container ever changes the other's entries. -/
theorem cow_divergence (w : World) (m : Mut) (ha : w.pa < w.next) :
    (∀ i j, ((w.assignBA).mutateB m).getA i j = (w.assignBA).getA i j) ∧
    (∀ i j, ((w.assignBA).mutateB m).getB i j =
      (m.applyBackend (w.mem w.pa)).entry i j) ∧
    (∀ i j, ((w.assignBA).mutateA m).getB i j = (w.assignBA).getB i j) ∧
    (((w.assignBA).mutateB m).pa ≠ ((w.assignBA).mutateB m).pb) ∧
    (∀ ms : List (Bool × Mut),
      ((∀ x ∈ ms, x.1 = false) →
        ∀ i j, (((w.assignBA).mutateB m).runMuts ms).getA i j =
          ((w.assignBA).mutateB m).getA i j) ∧
      ((∀ x ∈ ms, x.1 = true) →
        ∀ i j, (((w.assignBA).mutateB m).runMuts ms).getB i j =
          ((w.assignBA).mutateB m).getB i j)) := by
  set w1 := w.assignBA with hw1
  have hshared : w1.pb = w1.pa := rfl
  have hpa : w1.pa = w.pa := rfl
  have hnext : w1.next = w.next := rfl
  have ha1 : w1.pa < w1.next := ha
  obtain ⟨hb1, hb2, hb3, hb4, hb5⟩ := mutateB_of_shared w1 m hshared ha1
  obtain ⟨ha1', ha2', ha3', ha4', ha5'⟩ := mutateA_of_shared w1 m hshared.symm ha1
  have hdiv : (w1.mutateB m).pa ≠ (w1.mutateB m).pb := by
    rw [hb1, hb2]
    exact Nat.ne_of_lt ha1
  refine ⟨?_, ?_, ?_, hdiv, ?_⟩
  · intro i j
    unfold World.getA
    rw [hb1, hb4]
  · intro i j
    unfold World.getB
    rw [hb2, hb5]
    rfl
  · intro i j
    unfold World.getB
    rw [ha2', ha4']
  · intro ms
    constructor
    · intro hall
      exact (runMuts_onlyB ms (w1.mutateB m) hdiv hall).2
    · intro hall
      exact (runMuts_onlyA ms (w1.mutateB m) hdiv hall).2

/-- Concrete world for the C1 witness: one 2x2 backend at address 0, both
containers pointing at it is irrelevant here since the theorem assigns first. -/
def world0 : World :=
  ⟨fun _ => mat22, 1, 0, 0⟩

theorem cow_divergence_witness :
    world0.pa < world0.next ∧
    (∀ i j, ((world0.assignBA).mutateB (Mut.set_entry 0 0 9)).getA i j =
      (world0.assignBA).getA i j) :=
  ⟨by decide, (cow_divergence world0 (Mut.set_entry 0 0 9) (by decide)).1⟩

/-! ### `SparsityPatternDefault` and `createCompressedSparsityPattern` (C10)

From dune/stuff/la/container/pattern.hh: a pattern is a
`std::vector<std::set<unsigned int>>`; compression keeps, per row, the columns
whose matrix value has absolute value strictly above the threshold. -/

/-- Source `SparsityPatternDefault`: a row-indexed vector of column-index sets. -/
structure SparsityPatternDefault where
  vectorOfSets : List (Finset ℕ)

/-- Source `size()`. -/
def SparsityPatternDefault.size (p : SparsityPatternDefault) : Nat :=
  p.vectorOfSets.length

/-- Source `set(index)`: the column set of a row. -/
def SparsityPatternDefault.set (p : SparsityPatternDefault) (r : Nat) : Finset ℕ :=
  p.vectorOfSets.getD r ∅

/-- The row loop of `createCompressedSparsityPattern`, carrying the current row
index: for each column of the uncompressed row, insert it iff
`std::abs(matrix.get(row, col)) > threshhold`. -/
def compressRows (get : Nat → Nat → ℚ) (t : ℚ) : Nat → List (Finset ℕ) → List (Finset ℕ)
  | _, [] => []
  | r, s :: rest => s.filter (fun c => t < |get r c|) :: compressRows get t (r + 1) rest

/-- Source `createCompressedSparsityPattern(uncompressedPattern, matrix, threshhold)`:
a fresh pattern of the same size holding only the entries whose matrix value is
large enough.  The matrix enters only through its `get` accessor. -/
def createCompressedSparsityPattern (p : SparsityPatternDefault)
    (get : Nat → Nat → ℚ) (t : ℚ) : SparsityPatternDefault :=
  ⟨compressRows get t 0 p.vectorOfSets⟩

theorem compressRows_length (get : Nat → Nat → ℚ) (t : ℚ) (l : List (Finset ℕ)) :
    ∀ r0, (compressRows get t r0 l).length = l.length := by
  induction l with
  | nil => intro r0; rfl
  | cons s rest ih =>
    intro r0
    show (compressRows get t r0 (s :: rest)).length = rest.length + 1
    unfold compressRows
    rw [List.length_cons, ih (r0 + 1)]

theorem compressRows_getD (get : Nat → Nat → ℚ) (t : ℚ) (l : List (Finset ℕ)) :
    ∀ k r0, (compressRows get t r0 l).getD k ∅ =
      (l.getD k ∅).filter (fun c => t < |get (r0 + k) c|) := by
  induction l with
  | nil =>
    intro k r0
    rw [show compressRows get t r0 [] = [] from rfl, List.getD_nil, Finset.filter_empty]
  | cons s rest ih =>
    intro k r0
    cases k with
    | zero => simp [compressRows, List.getD]
    | succ k' =>
      show (compressRows get t r0 (s :: rest)).getD (k' + 1) ∅ = _
      unfold compressRows
      rw [List.getD_cons_succ, List.getD_cons_succ, ih k' (r0 + 1)]
      have harith : r0 + 1 + k' = r0 + (k' + 1) := by omega
      rw [harith]

/-- C10: the compressed pattern has the same number of rows, and a column `c`
lies in compressed row `r` iff it lies in the uncompressed row `r` and
`|matrix.get(r, c)| > threshold`; with the default threshold `0`, entries whose
stored value is exactly zero are dropped. -/
theorem createCompressedSparsityPattern_spec (p : SparsityPatternDefault)
    (get : Nat → Nat → ℚ) (t : ℚ) (_ht : 0 ≤ t) :
    (createCompressedSparsityPattern p get t).size = p.size ∧
    (∀ r c, r < p.size →
      (c ∈ (createCompressedSparsityPattern p get t).set r ↔
        c ∈ p.set r ∧ t < |get r c|)) ∧
    (∀ r c, r < p.size →
      (c ∈ (createCompressedSparsityPattern p get 0).set r ↔
        c ∈ p.set r ∧ get r c ≠ 0)) := by
  refine ⟨compressRows_length get t p.vectorOfSets 0, ?_, ?_⟩
  · intro r c _
    unfold createCompressedSparsityPattern SparsityPatternDefault.set
    show c ∈ (compressRows get t 0 p.vectorOfSets).getD r ∅ ↔ _
    rw [compressRows_getD get t p.vectorOfSets r 0]
    have h0 : 0 + r = r := by omega
    rw [h0, Finset.mem_filter]
  · intro r c _
    unfold createCompressedSparsityPattern SparsityPatternDefault.set
    show c ∈ (compressRows get 0 0 p.vectorOfSets).getD r ∅ ↔ _
    rw [compressRows_getD get 0 p.vectorOfSets r 0]
    have h0 : 0 + r = r := by omega
    rw [h0, Finset.mem_filter]
    exact and_congr_right (fun _ => abs_pos)

/-- Concrete pattern for the C10 witness. -/
def pattern0 : SparsityPatternDefault :=
  ⟨[{0, 1}, {0, 1}]⟩

/-- Concrete matrix accessor for the C10 witness: `get r c = r - c` so that the
diagonal holds exact zeros. -/
def get0 : Nat → Nat → ℚ :=
  fun r c => (r : ℚ) - (c : ℚ)

theorem createCompressedSparsityPattern_spec_witness :
    (0 : ℚ) ≤ 0 ∧
    ((createCompressedSparsityPattern pattern0 get0 0).size = pattern0.size ∧
     (∀ r c, r < pattern0.size →
       (c ∈ (createCompressedSparsityPattern pattern0 get0 0).set r ↔
         c ∈ pattern0.set r ∧ (0 : ℚ) < |get0 r c|)) ∧
     (∀ r c, r < pattern0.size →
       (c ∈ (createCompressedSparsityPattern pattern0 get0 0).set r ↔
         c ∈ pattern0.set r ∧ get0 r c ≠ 0))) :=
  ⟨le_refl 0, createCompressedSparsityPattern_spec pattern0 get0 0 (le_refl 0)⟩

/-! ### `ExtendedParameterTree` lookups (C8)

From dune/stuff/common/parameter/tree.hh.  The base class
`Dune::ParameterTree` is an external collaborator (dune-common, not part of
this repository's sources). -/

/-- Modelled from the spec: the base `Dune::ParameterTree` — "a hierarchical
string-keyed tree" — is represented extensionally by its finite map from key
paths to string values.  `hasKey` and `get(key, default)` of the base class are
the map lookup and the lookup-with-default. -/
structure ParameterTree where
  entries : List (List String × String)

/-- Base-class `hasKey`. -/
def ParameterTree.hasKey (t : ParameterTree) (k : List String) : Bool :=
  (t.entries.lookup k).isSome

/-- Base-class `get(key, defaultValue)`: the stored value when present, the
default otherwise. -/
def ParameterTree.getBaseD (t : ParameterTree) (k : List String) (d : String) : String :=
  (t.entries.lookup k).getD d

/-- The warning printed by the defaulted `ExtendedParameterTree::get`. -/
def warnMsg (k : List String) (d : String) : String :=
  "WARNING: missing key '" ++ String.intercalate "." k ++
    "' is replaced by given default value '" ++ d ++ "'!"

/-- The message of the `Dune::RangeError` thrown by the undefaulted
`ExtendedParameterTree::get`. -/
def missingKeyMsg (k : List String) : String :=
  "ERROR: key '" ++ String.intercalate "." k ++
    "' missing  in the following Dune::ParameterTree"

/-- Source `ExtendedParameterTree::get<T>(key)` (no default): throws a
`Dune::RangeError` when the key is absent, otherwise returns the stored value
through the base class. -/
def extendedGet (t : ParameterTree) (k : List String) : Except String String :=
  if t.hasKey k = false then Except.error (missingKeyMsg k)
  else
    match t.entries.lookup k with
    | some v => Except.ok v
    | none => Except.error (missingKeyMsg k)

/-- Source `ExtendedParameterTree::get(key, defaultValue)`: prints a warning when the
key is absent, then delegates to the base class lookup-with-default.  The
returned pair carries the result and the emitted warnings. -/
def extendedGetD (t : ParameterTree) (k : List String) (d : String) :
    String × List String :=
  (t.getBaseD k d, if t.hasKey k = false then [warnMsg k d] else [])

/-- C8: the undefaulted `get` raises a range error exactly when the key is
absent; the defaulted `get` never raises, returning the default plus a warning
on a missing key; and on a present key both return the stored value (the
defaulted one without warning). -/
theorem extendedParameterTree_get_spec (t : ParameterTree) (k : List String) (d : String) :
    ((∃ e, extendedGet t k = Except.error e) ↔ t.hasKey k = false) ∧
    (t.hasKey k = false → extendedGetD t k d = (d, [warnMsg k d])) ∧
    (∀ v, t.entries.lookup k = some v →
      extendedGet t k = Except.ok v ∧ extendedGetD t k d = (v, [])) := by
  refine ⟨?_, ?_, ?_⟩
  · constructor
    · rintro ⟨e, he⟩
      by_cases h : t.hasKey k = false
      · exact h
      · exfalso
        have hsome : (t.entries.lookup k).isSome = true := by
          cases hb : (t.entries.lookup k).isSome with
          | false => exact absurd hb h
          | true => rfl
        obtain ⟨v, hv⟩ := Option.isSome_iff_exists.mp hsome
        unfold extendedGet at he
        rw [if_neg h, hv] at he
        simp at he
    · intro h
      refine ⟨missingKeyMsg k, ?_⟩
      unfold extendedGet
      rw [if_pos h]
  · intro h
    have hnone : t.entries.lookup k = none := by
      unfold ParameterTree.hasKey at h
      cases hb : t.entries.lookup k
      · rfl
      · rw [hb] at h; simp at h
    unfold extendedGetD ParameterTree.getBaseD
    rw [hnone, if_pos h]
    rfl
  · intro v hv
    have hkey : t.hasKey k = true := by
      unfold ParameterTree.hasKey
      rw [hv]
      rfl
    have hkeyne : ¬ t.hasKey k = false := by
      rw [hkey]; simp
    constructor
    · unfold extendedGet
      rw [if_neg hkeyne, hv]
    · unfold extendedGetD ParameterTree.getBaseD
      rw [hv, if_neg hkeyne]
      rfl

/-- Concrete tree for the C8 witness. -/
def tree0 : ParameterTree :=
  ⟨[(["grid", "level"], "4")]⟩

theorem extendedParameterTree_get_spec_witness :
    tree0.entries.lookup ["grid", "level"] = some "4" ∧
    (extendedGet tree0 ["grid", "level"] = Except.ok "4" ∧
     extendedGetD tree0 ["grid", "level"] "0" = ("4", [])) :=
  ⟨by decide, (extendedParameterTree_get_spec tree0 ["grid", "level"] "0").2.2 "4" (by decide)⟩

/-! ### `Common::wraparound_array` subscription (C9)

From the misc header (stuff.hh).  The `int` overload of `operator[]` computes
`i < 0 ? size_t( N - ( ( (i * -1) % N ) + 1 ) ) : size_t(i)`; the `size_t`
overload computes `i % N`.  The class doc-comment promises
`wraparound_array[4] == wraparound_array[0]` and
`wraparound_array[-1] == wraparound_array[3]` for `N = 4`. -/

/-- The index computed by the `int` overload of `wraparound_array::operator[]`
(all arithmetic in `Int` as in C++, where every operand is nonnegative in the
branch that uses `%`, then cast to `size_t`). -/
def wraparoundIdxInt (N : Nat) (i : Int) : Nat :=
  if i < 0 then ((N : Int) - ((i * -1) % (N : Int) + 1)).toNat
  else i.toNat

/-- The index computed by the `size_t` overload of
`wraparound_array::operator[]`. -/
def wraparoundIdxSizeT (N : Nat) (i : Nat) : Nat :=
  i % N

/-- The index the claim (and the class's own doc-comment) promises for an `int`
subscript: `((i mod N) + N) mod N`. -/
def wraparoundIdxClaim (N : Nat) (i : Int) : Nat :=
  (((i % (N : Int)) + (N : Int)) % (N : Int)).toNat

/-- C9 (code bug): for `N = 4` the `int` overload maps `-1` to element `2`,
while the claim — and the doc-comment of `wraparound_array` itself — require
element `3`; moreover the nonnegative `int` index `4` is used unreduced (out of
bounds for the underlying `Dune::array<T, 4>`) instead of wrapping to `0`.
Only the `size_t` overload wraps as documented. -/
theorem wraparound_int_mismatch :
    wraparoundIdxInt 4 (-1) = 2 ∧
    wraparoundIdxClaim 4 (-1) = 3 ∧
    wraparoundIdxInt 4 4 = 4 ∧
    wraparoundIdxClaim 4 4 = 0 ∧
    wraparoundIdxSizeT 4 4 = 0 := by
  decide

/-! ### `Stuff::readSparseMatrix` line tokenization (C7)

From stuff/matrix.hh: for each line read by `getline`, a do-while loop splits
the line at commas using `find_first_of(",")` / `substr`, pushes each parsed
field onto `entryLine`, and afterwards `assert(entryLine.size()==3)` before
`matrix.add(entryLine[0], entryLine[1], entryLine[2])`. -/

/-- Source `row.find_first_of(",")` on a character list: index of the first comma. -/
def findComma : List Char → Option Nat
  | [] => none
  | c :: rest => if c = ',' then some 0 else (findComma rest).map (· + 1)

/-- Source `row.find_first_of(",", pos)`: first comma at index `>= pos` (with C++'s
convention that a start position past the end yields npos). -/
def findCommaFrom (row : List Char) (pos : Nat) : Option Nat :=
  (findComma (row.drop pos)).map (· + pos)

/-- The body of the reader's do-while loop, fuel-indexed (the loop always
terminates within `row.length + 2` iterations because `last_found` strictly
increases and is bounded by `row.length + 1`).  `found = none` models
`std::string::npos`. -/
def tokenLoop (row : List Char) :
    Nat → Nat → Option Nat → List (List Char) → List (List Char)
  | 0, _, _, acc => acc
  | fuel + 1, last_found, found, acc =>
    let fd := match found with
      | none => row.length
      | some k => k
    let subs := (row.drop last_found).take (fd - last_found)
    let lf := fd + 1
    let acc2 := acc ++ [subs]
    if lf = row.length + 1 then acc2
    else tokenLoop row fuel lf (findCommaFrom row lf) acc2

/-- The fields `entryLine` collects for one input line (as raw substrings):
the do-while tokenization of `readSparseMatrix`. -/
def readLineTokens (row : List Char) : List (List Char) :=
  tokenLoop row (row.length + 2) 0 (findCommaFrom row 0) []

/-- Reference splitting of a line at commas (a trailing comma yields a
trailing empty field). -/
def splitCommas : List Char → List (List Char)
  | [] => [[]]
  | c :: rest =>
    if c = ',' then [] :: splitCommas rest
    else
      match splitCommas rest with
      | [] => [[c]]
      | tk :: ts => (c :: tk) :: ts

theorem splitCommas_ne_nil (l : List Char) : splitCommas l ≠ [] := by
  cases l with
  | nil => simp [splitCommas]
  | cons c rest =>
    unfold splitCommas
    by_cases h : c = ','
    · simp [h]
    · cases hs : splitCommas rest with
      | nil => simp [h, hs]
      | cons tk ts => simp [h, hs]

theorem splitCommas_no_comma (l : List Char) (h : ',' ∉ l) : splitCommas l = [l] := by
  induction l with
  | nil => rfl
  | cons c rest ih =>
    have hc : ¬ c = ',' := fun he => h (he ▸ List.mem_cons_self c rest)
    have hrest : ',' ∉ rest := fun hm => h (List.mem_cons_of_mem c hm)
    unfold splitCommas
    rw [if_neg hc, ih hrest]

theorem splitCommas_append (a b : List Char) (ha : ',' ∉ a) :
    splitCommas (a ++ ',' :: b) = a :: splitCommas b := by
  induction a with
  | nil =>
    show splitCommas (',' :: b) = [] :: splitCommas b
    simp [splitCommas]
  | cons c cs ih =>
    have hc : ¬ c = ',' := fun he => ha (he ▸ List.mem_cons_self c cs)
    have hcs : ',' ∉ cs := fun hm => ha (List.mem_cons_of_mem c hm)
    show splitCommas (c :: (cs ++ ',' :: b)) = (c :: cs) :: splitCommas b
    simp only [splitCommas]
    rw [if_neg hc, ih hcs]

theorem findComma_none (l : List Char) (h : findComma l = none) : ',' ∉ l := by
  induction l with
  | nil => simp
  | cons c rest ih =>
    unfold findComma at h
    by_cases hc : c = ','
    · rw [if_pos hc] at h
      exact absurd h (by simp)
    · rw [if_neg hc] at h
      have hrest : findComma rest = none := by
        cases hr : findComma rest
        · rfl
        · rw [hr] at h
          simp at h
      intro hm
      cases List.mem_cons.mp hm with
      | inl he => exact hc he.symm
      | inr hm' => exact ih hrest hm'

theorem findComma_some (l : List Char) :
    ∀ k, findComma l = some k →
      ∃ a b, l = a ++ ',' :: b ∧ a.length = k ∧ ',' ∉ a := by
  induction l with
  | nil => intro k h; exact absurd h (by simp [findComma])
  | cons c rest ih =>
    intro k h
    unfold findComma at h
    by_cases hc : c = ','
    · rw [if_pos hc] at h
      refine ⟨[], rest, ?_, ?_, by simp⟩
      · rw [hc]; rfl
      · have : k = 0 := by
          have h' := h
          simp at h'
          omega
        simp [this]
    · rw [if_neg hc] at h
      cases hr : findComma rest with
      | none =>
        rw [hr] at h
        exact absurd h (by simp)
      | some k' =>
        rw [hr] at h
        simp at h
        obtain ⟨a, b, hab, hlen, hnc⟩ := ih k' hr
        refine ⟨c :: a, b, by rw [hab]; rfl, ?_, ?_⟩
        · rw [List.length_cons, hlen, h]
        · intro hm
          cases List.mem_cons.mp hm with
          | inl he => exact hc he.symm
          | inr hm' => exact hnc hm'

theorem tokenLoop_spec (fuel : Nat) :
    ∀ (row : List Char) (lf : Nat) (acc : List (List Char)),
      lf ≤ row.length → row.length + 1 - lf ≤ fuel →
      tokenLoop row fuel lf (findCommaFrom row lf) acc =
        acc ++ splitCommas (row.drop lf) := by
  induction fuel with
  | zero =>
    intro row lf acc hle hfuel
    omega
  | succ fuel ih =>
    intro row lf acc hle hfuel
    cases hf : findComma (row.drop lf) with
    | none =>
      have hfc : findCommaFrom row lf = none := by
        unfold findCommaFrom
        rw [hf]
        rfl
      have hnc : ',' ∉ row.drop lf := findComma_none _ hf
      rw [hfc]
      show (if row.length + 1 = row.length + 1 then
          acc ++ [(row.drop lf).take (row.length - lf)]
        else tokenLoop row fuel (row.length + 1) (findCommaFrom row (row.length + 1))
          (acc ++ [(row.drop lf).take (row.length - lf)])) =
        acc ++ splitCommas (row.drop lf)
      rw [if_pos rfl]
      have hsub : (row.drop lf).take (row.length - lf) = row.drop lf := by
        rw [← List.length_drop, List.take_length]
      rw [hsub, splitCommas_no_comma _ hnc]
    | some k =>
      have hfc : findCommaFrom row lf = some (k + lf) := by
        unfold findCommaFrom
        rw [hf]
        rfl
      obtain ⟨a, b, hab, hlen, hnc⟩ := findComma_some _ k hf
      have hdlen : (row.drop lf).length = row.length - lf := List.length_drop lf row
      have hk : k < (row.drop lf).length := by
        rw [hab, List.length_append, List.length_cons]
        omega
      have hlt : k + lf + 1 ≤ row.length := by omega
      have hne : ¬ (k + lf + 1 = row.length + 1) := by omega
      rw [hfc]
      show (if k + lf + 1 = row.length + 1 then
          acc ++ [(row.drop lf).take (k + lf - lf)]
        else tokenLoop row fuel (k + lf + 1) (findCommaFrom row (k + lf + 1))
          (acc ++ [(row.drop lf).take (k + lf - lf)])) =
        acc ++ splitCommas (row.drop lf)
      rw [if_neg hne]
      have htake : (row.drop lf).take (k + lf - lf) = a := by
        have hkk : k + lf - lf = k := by omega
        rw [hkk, hab, ← hlen, List.take_left]
      have hdropnext : row.drop (k + lf + 1) = b := by
        have h1 : row.drop (k + lf + 1) = (row.drop lf).drop (k + 1) := by
          rw [List.drop_drop]
          have h2 : lf + (k + 1) = k + lf + 1 := by omega
          rw [h2]
        rw [h1, hab, List.append_cons, List.drop_left']
        rw [List.length_append, List.length_cons, List.length_nil, hlen]
      have hrec := ih row (k + lf + 1) (acc ++ [(row.drop lf).take (k + lf - lf)]) hlt (by omega)
      rw [hrec, hdropnext, htake, hab, splitCommas_append a b hnc, List.append_assoc]
      rfl

/-- The tokenization performed by `readSparseMatrix` on one line is exactly
comma-splitting (with a trailing comma yielding a trailing empty field). -/
theorem readLineTokens_eq_splitCommas (row : List Char) :
    readLineTokens row = splitCommas row := by
  unfold readLineTokens
  have h := tokenLoop_spec (row.length + 2) row 0 [] (Nat.zero_le _) (by omega)
  rw [h, List.drop_zero, List.nil_append]

/-- C7 counterexample: on the line `1,2,3,` (a `row,col,value` line followed by
one trailing comma) the reader's do-while loop produces FOUR fields — the
trailing empty field becomes a fourth token — so `entryLine.size()` is 4 and
the per-line assertion `assert(entryLine.size()==3)` fails, contrary to the
claim that such a line is tolerated. -/
theorem readLine_trailing_comma_counterexample :
    (readLineTokens ['1', ',', '2', ',', '3', ',']).length ≠ 3 ∧
    readLineTokens ['1', ',', '2', ',', '3', ','] = [['1'], ['2'], ['3'], []] := by
  decide

/-- C7 (amended): for every line of three comma-free fields followed by a
trailing comma, `readSparseMatrix` tokenizes the line into the three fields
plus one empty fourth field, so the per-line assertion that exactly three
tokens were read FAILS; only the same line without the trailing comma yields
exactly the three fields (and then the entry is added). -/
theorem readLine_trailing_comma (a b c : List Char)
    (ha : ',' ∉ a) (hb : ',' ∉ b) (hc : ',' ∉ c) :
    readLineTokens (a ++ ',' :: (b ++ ',' :: (c ++ [',']))) = [a, b, c, []] ∧
    (readLineTokens (a ++ ',' :: (b ++ ',' :: (c ++ [','])))).length ≠ 3 ∧
    readLineTokens (a ++ ',' :: (b ++ ',' :: c)) = [a, b, c] := by
  have htail : splitCommas (c ++ [',']) = [c, []] := by
    rw [show c ++ [','] = c ++ ',' :: [] from rfl, splitCommas_append c [] hc]
    rfl
  refine ⟨?_, ?_, ?_⟩
  · rw [readLineTokens_eq_splitCommas, splitCommas_append a _ ha,
      splitCommas_append b _ hb, htail]
  · rw [readLineTokens_eq_splitCommas, splitCommas_append a _ ha,
      splitCommas_append b _ hb, htail]
    simp
  · rw [readLineTokens_eq_splitCommas, splitCommas_append a _ ha,
      splitCommas_append b _ hb, splitCommas_no_comma c hc]

theorem readLine_trailing_comma_witness :
    ((',' ∉ ['1']) ∧ (',' ∉ ['2']) ∧ (',' ∉ ['3'])) ∧
    (readLineTokens (['1'] ++ ',' :: (['2'] ++ ',' :: (['3'] ++ [',']))) =
      [['1'], ['2'], ['3'], []] ∧
     (readLineTokens (['1'] ++ ',' :: (['2'] ++ ',' :: (['3'] ++ [','])))).length ≠ 3 ∧
     readLineTokens (['1'] ++ ',' :: (['2'] ++ ',' :: ['3'])) = [['1'], ['2'], ['3']]) :=
  ⟨⟨by decide, by decide, by decide⟩,
    readLine_trailing_comma ['1'] ['2'] ['3'] (by decide) (by decide) (by decide)⟩

/-! ### Sparse-matrix text round trip (C4)

From stuff/matrix.hh.  `writeSparseMatrix` emits, for each present entry in
ascending row-major order, a line `i,j,value` with the value printed by
`out.precision(12); out.setf(std::ios::scientific)` — scientific notation with
12 digits after the decimal point.  `readSparseMatrix` clears the target
matrix and `add`s each parsed line.

The generic `SparseMatrixImpl` is embedded through the interface the two
functions use: `rows`, `cols`, `find` (presence), `operator()` (value),
`clear`, `add`.  The decimal text itself is abstracted to the rational value
it denotes: printing `v` in scientific notation with 12 fractional digits
denotes exactly `sciRound v` (rounding to nearest, ties idealized upward),
and parsing recovers that rational exactly. -/

/-- The sparse matrix interface used by `writeSparseMatrix`/`readSparseMatrix`. -/
structure SparseMat where
  rows : Nat
  cols : Nat
  present : Nat → Nat → Bool
  val : Nat → Nat → ℚ

/-- Source `matrix.add(i, j, v)` (`SparseRowMatrix::add`): adds `v` into entry
`(i, j)`, which becomes present. -/
def SparseMat.add (m : SparseMat) (i j : Nat) (v : ℚ) : SparseMat :=
  { m with
    present := fun i' j' => if i' = i ∧ j' = j then true else m.present i' j',
    val := fun i' j' => if i' = i ∧ j' = j then m.val i' j' + v else m.val i' j' }

/-- Source `matrix.clear()`: same shape, no present entries, all values zero. -/
def SparseMat.clear (m : SparseMat) : SparseMat :=
  { m with present := fun _ _ => false, val := fun _ _ => 0 }

/-- The rational denoted by printing `v` in scientific notation with 12 digits
after the decimal point: `d.dddddddddddde±EE` keeps 13 significant digits,
i.e. rounds `v` to the nearest multiple of `10 ^ (exponent - 12)`. -/
def sciRound (v : ℚ) : ℚ :=
  if v = 0 then 0
  else (round (v / (10 : ℚ) ^ (Int.log 10 |v| - 12)) : ℚ) *
    (10 : ℚ) ^ (Int.log 10 |v| - 12)

/-- One row of `writeSparseMatrix`'s output: the inner `for (j)` loop emits a
line for every present entry of row `i`, in ascending column order. -/
def writeRow (m : SparseMat) (i : Nat) : List (Nat × Nat × ℚ) :=
  (List.range m.cols).filterMap
    (fun j => if m.present i j = true then some (i, j, sciRound (m.val i j)) else none)

/-- Source `writeSparseMatrix`: all lines, rows in ascending order. -/
def writeSparseMatrix (m : SparseMat) : List (Nat × Nat × ℚ) :=
  (List.range m.rows).foldr (fun i acc => writeRow m i ++ acc) []

/-- The reader's per-line `matrix.add(entryLine[0], entryLine[1], entryLine[2])`
folded over all lines. -/
def addAll (start : SparseMat) (lines : List (Nat × Nat × ℚ)) : SparseMat :=
  lines.foldl (fun acc l => acc.add l.1 l.2.1 l.2.2) start

/-- Source `readSparseMatrix(matrix, in)`: `matrix.clear()` then add every line. -/
def readSparseMatrix (m : SparseMat) (lines : List (Nat × Nat × ℚ)) : SparseMat :=
  addAll m.clear lines

/-- Write a sparse matrix to text and read it back into a fresh matrix of the
same shape. -/
def roundtripMatrix (m : SparseMat) : SparseMat :=
  readSparseMatrix m (writeSparseMatrix m)

/-- Key test used when locating the line(s) of entry `(i, j)`. -/
def keyMatch (i j : Nat) (l : Nat × Nat × ℚ) : Bool :=
  l.1 == i && l.2.1 == j

theorem addAll_val (lines : List (Nat × Nat × ℚ)) :
    ∀ (start : SparseMat) (i j : Nat),
      (addAll start lines).val i j =
        start.val i j + ((lines.filter (keyMatch i j)).map (fun l => l.2.2)).sum := by
  induction lines with
  | nil =>
    intro start i j
    simp [addAll]
  | cons l ls ih =>
    intro start i j
    have hstep : addAll start (l :: ls) = addAll (start.add l.1 l.2.1 l.2.2) ls := rfl
    rw [hstep, ih, List.filter_cons]
    by_cases hk : l.1 = i ∧ l.2.1 = j
    · have hkey : keyMatch i j l = true := by
        unfold keyMatch
        rw [hk.1, hk.2]
        simp

      have haddv : (start.add l.1 l.2.1 l.2.2).val i j = start.val i j + l.2.2 := by
        show (if i = l.1 ∧ j = l.2.1 then start.val i j + l.2.2 else start.val i j) = _
        rw [if_pos ⟨hk.1.symm, hk.2.symm⟩]
      rw [haddv, hkey]
      simp
      ring
    · have hkey : keyMatch i j l = false := by
        unfold keyMatch
        rcases Decidable.em (l.1 = i) with h1 | h1
        · rcases Decidable.em (l.2.1 = j) with h2 | h2
          · exact absurd ⟨h1, h2⟩ hk
          · simp [h1, h2]
        · simp [h1]
      have haddv : (start.add l.1 l.2.1 l.2.2).val i j = start.val i j := by
        show (if i = l.1 ∧ j = l.2.1 then start.val i j + l.2.2 else start.val i j) = _
        rw [if_neg (fun hc => hk ⟨hc.1.symm, hc.2.symm⟩)]
      rw [haddv, hkey]
      simp

theorem addAll_present (lines : List (Nat × Nat × ℚ)) :
    ∀ (start : SparseMat) (i j : Nat),
      (addAll start lines).present i j =
        (start.present i j || lines.any (keyMatch i j)) := by
  induction lines with
  | nil =>
    intro start i j
    simp [addAll]
  | cons l ls ih =>
    intro start i j
    have hstep : addAll start (l :: ls) = addAll (start.add l.1 l.2.1 l.2.2) ls := rfl
    rw [hstep, ih, List.any_cons]
    by_cases hk : l.1 = i ∧ l.2.1 = j
    · have hkey : keyMatch i j l = true := by
        unfold keyMatch
        rw [hk.1, hk.2]
        simp
      have haddp : (start.add l.1 l.2.1 l.2.2).present i j = true := by
        show (if i = l.1 ∧ j = l.2.1 then true else start.present i j) = true
        rw [if_pos ⟨hk.1.symm, hk.2.symm⟩]
      rw [haddp, hkey]
      simp
    · have hkey : keyMatch i j l = false := by
        unfold keyMatch
        rcases Decidable.em (l.1 = i) with h1 | h1
        · rcases Decidable.em (l.2.1 = j) with h2 | h2
          · exact absurd ⟨h1, h2⟩ hk
          · simp [h1, h2]
        · simp [h1]
      have haddp : (start.add l.1 l.2.1 l.2.2).present i j = start.present i j := by
        show (if i = l.1 ∧ j = l.2.1 then true else start.present i j) = _
        rw [if_neg (fun hc => hk ⟨hc.1.symm, hc.2.symm⟩)]
      rw [haddp, hkey]
      simp

theorem writeRow_mem_fst (m : SparseMat) (r : Nat) (l : Nat × Nat × ℚ)
    (hl : l ∈ writeRow m r) : l.1 = r := by
  unfold writeRow at hl
  obtain ⟨c, _, hfc⟩ := List.mem_filterMap.mp hl
  by_cases hp : m.present r c = true
  · rw [if_pos hp] at hfc
    cases hfc
    rfl
  · rw [if_neg hp] at hfc
    exact absurd hfc (by simp)

theorem writeRow_filter_ne (m : SparseMat) (r i j : Nat) (h : r ≠ i) :
    (writeRow m r).filter (keyMatch i j) = [] := by
  rw [List.filter_eq_nil_iff]
  intro l hl hkey
  have h1 : l.1 = r := writeRow_mem_fst m r l hl
  unfold keyMatch at hkey
  have h2 : l.1 = i := by
    have := (Bool.and_eq_true _ _).mp hkey
    exact beq_iff_eq.mp this.1
  exact h (h1 ▸ h2)

/-- Source `writeRow m i` restricted to key `(i, c)` for the inner column list. -/
theorem writeRow_aux_filter_nil (m : SparseMat) (i j : Nat) :
    ∀ cl : List Nat, j ∉ cl →
      ((cl.filterMap (fun c =>
          if m.present i c = true then some (i, c, sciRound (m.val i c)) else none)).filter
        (keyMatch i j)) = [] := by
  intro cl
  induction cl with
  | nil => intro _; rfl
  | cons c cl' ih =>
    intro hj
    have hcj : c ≠ j := fun he => hj (he ▸ List.mem_cons_self c cl')
    have hj' : j ∉ cl' := fun hm => hj (List.mem_cons_of_mem c hm)
    rw [List.filterMap_cons]
    by_cases hp : m.present i c = true
    · rw [if_pos hp]
      show ((i, c, sciRound (m.val i c)) :: _).filter (keyMatch i j) = []
      rw [List.filter_cons]
      have hkey : keyMatch i j (i, c, sciRound (m.val i c)) = false := by
        unfold keyMatch
        simp [hcj]
      rw [hkey]
      simp only [Bool.false_eq_true, if_false]
      exact ih hj'
    · rw [if_neg hp]
      exact ih hj'

theorem writeRow_aux_filter_key (m : SparseMat) (i j : Nat) (hp : m.present i j = true) :
    ∀ cl : List Nat, cl.Nodup → j ∈ cl →
      ((cl.filterMap (fun c =>
          if m.present i c = true then some (i, c, sciRound (m.val i c)) else none)).filter
        (keyMatch i j)) = [(i, j, sciRound (m.val i j))] := by
  intro cl
  induction cl with
  | nil => intro _ hj; exact absurd hj (by simp)
  | cons c cl' ih =>
    intro hnd hj
    have hnd' : cl'.Nodup := (List.nodup_cons.mp hnd).2
    have hcnotin : c ∉ cl' := (List.nodup_cons.mp hnd).1
    rw [List.filterMap_cons]
    by_cases hcj : c = j
    · subst hcj
      rw [if_pos hp]
      show ((i, c, sciRound (m.val i c)) :: _).filter (keyMatch i c) = _
      rw [List.filter_cons]
      have hkey : keyMatch i c (i, c, sciRound (m.val i c)) = true := by
        unfold keyMatch
        simp
      rw [hkey]
      simp only [if_true]
      rw [writeRow_aux_filter_nil m i c cl' hcnotin]
    · have hj' : j ∈ cl' := by
        cases List.mem_cons.mp hj with
        | inl he => exact absurd he.symm hcj
        | inr hm => exact hm
      by_cases hpc : m.present i c = true
      · rw [if_pos hpc]
        show ((i, c, sciRound (m.val i c)) :: _).filter (keyMatch i j) = _
        rw [List.filter_cons]
        have hkey : keyMatch i j (i, c, sciRound (m.val i c)) = false := by
          unfold keyMatch
          simp [hcj]
        rw [hkey]
        simp only [Bool.false_eq_true, if_false]
        exact ih hnd' hj'
      · rw [if_neg hpc]
        exact ih hnd' hj'

theorem writeFold_filter_nil (m : SparseMat) (i j : Nat) :
    ∀ rl : List Nat, i ∉ rl →
      ((rl.foldr (fun r acc => writeRow m r ++ acc) []).filter (keyMatch i j)) = [] := by
  intro rl
  induction rl with
  | nil => intro _; rfl
  | cons r rl' ih =>
    intro hi
    have hri : r ≠ i := fun he => hi (he ▸ List.mem_cons_self r rl')
    have hi' : i ∉ rl' := fun hm => hi (List.mem_cons_of_mem r hm)
    show ((writeRow m r ++ rl'.foldr (fun r acc => writeRow m r ++ acc) []).filter
      (keyMatch i j)) = []
    rw [List.filter_append, writeRow_filter_ne m r i j hri, ih hi', List.append_nil]

theorem writeFold_filter_key (m : SparseMat) (i j : Nat)
    (hj : j < m.cols) (hp : m.present i j = true) :
    ∀ rl : List Nat, rl.Nodup → i ∈ rl →
      ((rl.foldr (fun r acc => writeRow m r ++ acc) []).filter (keyMatch i j)) =
        [(i, j, sciRound (m.val i j))] := by
  intro rl
  induction rl with
  | nil => intro _ hi; exact absurd hi (by simp)
  | cons r rl' ih =>
    intro hnd hi
    have hnd' : rl'.Nodup := (List.nodup_cons.mp hnd).2
    have hrnotin : r ∉ rl' := (List.nodup_cons.mp hnd).1
    show ((writeRow m r ++ rl'.foldr (fun r acc => writeRow m r ++ acc) []).filter
      (keyMatch i j)) = _
    rw [List.filter_append]
    by_cases hri : r = i
    · subst hri
      have hkeyrow : (writeRow m r).filter (keyMatch r j) =
          [(r, j, sciRound (m.val r j))] := by
        unfold writeRow
        exact writeRow_aux_filter_key m r j hp (List.range m.cols)
          (List.nodup_range m.cols) (List.mem_range.mpr hj)
      rw [hkeyrow, writeFold_filter_nil m r j rl' hrnotin, List.append_nil]
    · have hi' : i ∈ rl' := by
        cases List.mem_cons.mp hi with
        | inl he => exact absurd he.symm hri
        | inr hm => exact hm
      rw [writeRow_filter_ne m r i j hri, List.nil_append]
      exact ih hnd' hi'

/-- The written lines contain exactly one line for a present in-shape entry. -/
theorem writeSparseMatrix_filter (m : SparseMat) (i j : Nat)
    (hi : i < m.rows) (hj : j < m.cols) (hp : m.present i j = true) :
    (writeSparseMatrix m).filter (keyMatch i j) = [(i, j, sciRound (m.val i j))] :=
  writeFold_filter_key m i j hj hp (List.range m.rows)
    (List.nodup_range m.rows) (List.mem_range.mpr hi)

/-- The value read back for a present in-shape entry is the printed value. -/
theorem roundtripMatrix_val (m : SparseMat) (i j : Nat)
    (hi : i < m.rows) (hj : j < m.cols) (hp : m.present i j = true) :
    (roundtripMatrix m).val i j = sciRound (m.val i j) := by
  unfold roundtripMatrix readSparseMatrix
  rw [addAll_val, writeSparseMatrix_filter m i j hi hj hp]
  show (0 : ℚ) + _ = _
  simp

/-- Printing with 12 fractional scientific digits and reading back changes a
value of magnitude below 100 by at most `5e-12`, well within `1e-10`. -/
theorem sciRound_err (v : ℚ) (hv : |v| < 100) : |sciRound v - v| ≤ 1 / 10 ^ 10 := by
  by_cases h0 : v = 0
  · subst h0
    simp [sciRound]
  · have habs : (0:ℚ) < |v| := abs_pos.mpr h0
    have helog : Int.log 10 |v| < 2 := by
      have h2 : |v| < ((10:ℕ):ℚ) ^ (2:ℤ) := by
        have hx : ((10:ℕ):ℚ) ^ (2:ℤ) = 100 := by norm_num
        rw [hx]
        exact hv
      exact (Int.lt_zpow_iff_log_lt (by norm_num) habs).mp h2
    set e := Int.log 10 |v| with he
    set s : ℚ := (10:ℚ) ^ (e - 12) with hs
    have hspos : (0:ℚ) < s := zpow_pos (by norm_num) _
    have hsne : s ≠ 0 := ne_of_gt hspos
    have hrw : sciRound v = (round (v / s) : ℚ) * s := by
      unfold sciRound
      rw [if_neg h0]
    have hdiff : sciRound v - v = ((round (v / s) : ℚ) - v / s) * s := by
      rw [hrw, sub_mul, div_mul_cancel₀ v hsne]
    have habs2 : |sciRound v - v| = |(round (v / s) : ℚ) - v / s| * s := by
      rw [hdiff, abs_mul, abs_of_pos hspos]
    have hround : |(round (v / s) : ℚ) - v / s| ≤ 1 / 2 := by
      rw [abs_sub_comm]
      exact abs_sub_round (v / s)
    have hsle : s ≤ (10:ℚ) ^ (-11 : ℤ) := by
      rw [hs]
      exact zpow_le_zpow_right₀ (by norm_num) (by omega)
    have hzp : (10:ℚ) ^ (-11 : ℤ) = 1 / 10 ^ 11 := by
      norm_num
    calc |sciRound v - v| = |(round (v / s) : ℚ) - v / s| * s := habs2
      _ ≤ (1 / 2) * s := mul_le_mul_of_nonneg_right hround (le_of_lt hspos)
      _ ≤ (1 / 2) * (1 / 10 ^ 11) := by
          rw [← hzp]
          exact mul_le_mul_of_nonneg_left hsle (by norm_num)
      _ ≤ 1 / 10 ^ 10 := by norm_num

/-- Concrete 1x1 sparse matrix whose single value exceeds the precision of 12
fractional scientific digits. -/
def hugeSparse : SparseMat :=
  ⟨1, 1, fun _ _ => true, fun _ _ => (10:ℚ) ^ 13 + 1 / 2⟩

/-- Concrete well-behaved 1x1 sparse matrix for the C4 witness. -/
def smallSparse : SparseMat :=
  ⟨1, 1, fun _ _ => true, fun _ _ => (3 / 2 : ℚ)⟩

theorem hugeSparse_pos : (0:ℚ) < (10:ℚ) ^ 13 + 1 / 2 := by positivity

theorem hugeSparse_log : Int.log 10 |(10:ℚ) ^ 13 + 1 / 2| = 13 := by
  have habs : |(10:ℚ) ^ 13 + 1 / 2| = (10:ℚ) ^ 13 + 1 / 2 := abs_of_pos hugeSparse_pos
  rw [habs]
  have hle : (13:ℤ) ≤ Int.log 10 ((10:ℚ) ^ 13 + 1 / 2) := by
    apply (Int.zpow_le_iff_le_log (by norm_num) hugeSparse_pos).mp
    norm_num
  have hlt : Int.log 10 ((10:ℚ) ^ 13 + 1 / 2) < 14 := by
    apply (Int.lt_zpow_iff_log_lt (by norm_num) hugeSparse_pos).mp
    norm_num
  omega

theorem hugeSparse_sciRound : sciRound ((10:ℚ) ^ 13 + 1 / 2) = (10:ℚ) ^ 13 := by
  unfold sciRound
  rw [if_neg (ne_of_gt hugeSparse_pos), hugeSparse_log]
  have h1 : ((13:ℤ) - 12) = 1 := by omega
  rw [h1, zpow_one]
  have hdiv : ((10:ℚ) ^ 13 + 1 / 2) / 10 = 10 ^ 12 + 1 / 20 := by norm_num
  rw [hdiv]
  have hfloor : round ((10:ℚ) ^ 12 + 1 / 20) = 10 ^ 12 := by
    rw [round_eq]
    apply Int.floor_eq_iff.mpr
    constructor
    · push_cast
      norm_num
    · push_cast
      norm_num
  rw [hfloor]
  push_cast
  ring

/-- C4 counterexample: the 1x1 sparse matrix holding `10^13 + 1/2` round-trips
to `10^13` (the 13 significant digits of `%.12e` cannot carry the `+ 1/2`), an
error of `1/2`, far beyond the claimed `1e-10` tolerance. -/
theorem sparse_roundtrip_counterexample :
    ¬ (|(roundtripMatrix hugeSparse).val 0 0 - hugeSparse.val 0 0| ≤ 1 / 10 ^ 10) := by
  have hval : (roundtripMatrix hugeSparse).val 0 0 = sciRound ((10:ℚ) ^ 13 + 1 / 2) :=
    roundtripMatrix_val hugeSparse 0 0 (by decide) (by decide) rfl
  rw [hval, hugeSparse_sciRound]
  show ¬ (|(10:ℚ) ^ 13 - ((10:ℚ) ^ 13 + 1 / 2)| ≤ 1 / 10 ^ 10)
  rw [show (10:ℚ) ^ 13 - ((10:ℚ) ^ 13 + 1 / 2) = -(1 / 2) by ring]
  rw [abs_neg, abs_of_pos (by norm_num : (0:ℚ) < 1 / 2)]
  norm_num

/-- C4 (amended): writing a sparse matrix and reading it back into a fresh
matrix of the same shape reproduces every present in-shape entry within the
`1e-10` tolerance, provided the entry's magnitude is below 100 (in general the
round-trip error is bounded by half a unit in the 13th significant digit, so
the unqualified claim fails for large magnitudes). -/
theorem sparse_roundtrip_tolerance (m : SparseMat) (i j : Nat)
    (hi : i < m.rows) (hj : j < m.cols) (hp : m.present i j = true)
    (hmag : |m.val i j| < 100) :
    |(roundtripMatrix m).val i j - m.val i j| ≤ 1 / 10 ^ 10 := by
  rw [roundtripMatrix_val m i j hi hj hp]
  exact sciRound_err (m.val i j) hmag

theorem smallSparse_mag : |smallSparse.val 0 0| < 100 := by
  rw [show smallSparse.val 0 0 = (3 / 2 : ℚ) from rfl,
    abs_of_pos (by norm_num : (0:ℚ) < 3 / 2)]
  norm_num

theorem sparse_roundtrip_tolerance_witness :
    (0 < smallSparse.rows ∧ 0 < smallSparse.cols ∧ smallSparse.present 0 0 = true ∧
      |smallSparse.val 0 0| < 100) ∧
    |(roundtripMatrix smallSparse).val 0 0 - smallSparse.val 0 0| ≤ 1 / 10 ^ 10 :=
  ⟨⟨by decide, by decide, rfl, smallSparse_mag⟩,
    sparse_roundtrip_tolerance smallSparse 0 0 (by decide) (by decide) rfl smallSparse_mag⟩

end DuneStuff
